import Mathlib

/-!
# Verification of the workflow-planning core of `pytopomat.workflows.core`

This file is a shallow embedding, in Lean 4, of the planning logic of
`pytopomat/workflows/core.py` (class `Z2PackWF`): the reciprocal
point-group builder `_get_reciprocal_point_group_nonmagnetic`, the
permutation-invariant point-set test `_is_permutation_eq`, the surface
orbit reducer `get_equiv_planes`, the surface selector and the workflow
graph assembly of `get_wf`.  Floating-point numpy arrays are modelled by
exact rationals; `np.around(x, decimals=2)` is modelled exactly as
round-half-to-even at two decimal digits.  External collaborators
(pymatgen's `SpacegroupAnalyzer`, the dimensionality classifier, the
atomate powerups and the fireworks `Workflow` container) enter only
through their interfaces: the point group of the structure is an input
list of operations, the dimensionality hint is a triple of integers, and
`add_modify_incar` updates the parameter bag of the job nodes whose name
matches the constraint.
-/

namespace Pytopomat

/-- A 3×3 matrix with rational entries, row-major.  Models the (rounded)
numpy arrays that `core.py` manipulates. -/
structure M3 where
  a00 : ℚ
  a01 : ℚ
  a02 : ℚ
  a10 : ℚ
  a11 : ℚ
  a12 : ℚ
  a20 : ℚ
  a21 : ℚ
  a22 : ℚ
deriving DecidableEq, Repr

/-- Matrix product, `np.dot` on 3×3 arrays. -/
def m3Mul (x y : M3) : M3 :=
  ⟨x.a00 * y.a00 + x.a01 * y.a10 + x.a02 * y.a20,
   x.a00 * y.a01 + x.a01 * y.a11 + x.a02 * y.a21,
   x.a00 * y.a02 + x.a01 * y.a12 + x.a02 * y.a22,
   x.a10 * y.a00 + x.a11 * y.a10 + x.a12 * y.a20,
   x.a10 * y.a01 + x.a11 * y.a11 + x.a12 * y.a21,
   x.a10 * y.a02 + x.a11 * y.a12 + x.a12 * y.a22,
   x.a20 * y.a00 + x.a21 * y.a10 + x.a22 * y.a20,
   x.a20 * y.a01 + x.a21 * y.a11 + x.a22 * y.a21,
   x.a20 * y.a02 + x.a21 * y.a12 + x.a22 * y.a22⟩

/-- Entrywise negation, `-1 * M` in numpy. -/
def m3Neg (x : M3) : M3 :=
  ⟨-x.a00, -x.a01, -x.a02, -x.a10, -x.a11, -x.a12, -x.a20, -x.a21, -x.a22⟩

instance : Mul M3 := ⟨m3Mul⟩

instance : Neg M3 := ⟨m3Neg⟩

instance : One M3 := ⟨⟨1, 0, 0, 0, 1, 0, 0, 0, 1⟩⟩

/-- Round a rational to the nearest integer, ties to even
(the rounding convention of IEEE 754 and of `np.around`). -/
def rne (q : ℚ) : ℤ :=
  let f := ⌊q⌋
  let r := q - f
  if r < 1 / 2 then f
  else if 1 / 2 < r then f + 1
  else if f % 2 = 0 then f else f + 1

/-- Model of `np.around(q, decimals=2)`. -/
def around2 (q : ℚ) : ℚ := (rne (q * 100) : ℚ) / 100

/-- Entrywise `np.around(·, decimals=2)` on a 3×3 array. -/
def m3Around2 (x : M3) : M3 :=
  ⟨around2 x.a00, around2 x.a01, around2 x.a02,
   around2 x.a10, around2 x.a11, around2 x.a12,
   around2 x.a20, around2 x.a21, around2 x.a22⟩

/-- A point in fractional reciprocal coordinates. -/
abbrev Pt := ℚ × ℚ × ℚ

/-- Model of `np.dot(op, pt)` for a 3-vector. -/
def mApply (m : M3) (p : Pt) : Pt :=
  (m.a00 * p.1 + m.a01 * p.2.1 + m.a02 * p.2.2,
   m.a10 * p.1 + m.a11 * p.2.1 + m.a12 * p.2.2,
   m.a20 * p.1 + m.a21 * p.2.1 + m.a22 * p.2.2)

/-- Python `q % 1.0` (the result is in `[0, 1)`, also for negative `q`). -/
def frac1 (q : ℚ) : ℚ := q - ⌊q⌋

/-- Componentwise `pt % 1.0`. -/
def ptMod1 (p : Pt) : Pt := (frac1 p.1, frac1 p.2.1, frac1 p.2.2)

/-! ## The reciprocal point-group builder

`Z2PackWF._get_reciprocal_point_group_nonmagnetic` obtains the
real-space point-group rotations from pymatgen (here: the input list
`ops`), conjugates each by the basis-change matrix `A` (its numerical
inverse is `Ainv`), rounds to two decimals, and deduplicates while also
inserting the coset partner `R·op` for the inversion generator
`R = -np.eye(3)`. -/

/-- The generator `R = -1 * np.eye(3)`. -/
def RGen : M3 := -1

/-- Model of `np.around(np.dot(A, np.dot(op, Ainv)), decimals=2)`. -/
def transformOp (A Ainv : M3) (op : M3) : M3 := m3Around2 (m3Mul A (m3Mul op Ainv))

/-- The body of the `for op in isomorphic_point_group` loop: both
membership tests run against the list as it was at the top of the
iteration, then `op` and/or `R·op` are appended. -/
def rpgStep (A Ainv : M3) (acc : List M3) (rawOp : M3) : List M3 :=
  let op := transformOp A Ainv rawOp
  (if op ∈ acc then acc else acc ++ [op]) ++
    (if RGen * op ∈ acc then [] else [RGen * op])

/-- Model of `Z2PackWF._get_reciprocal_point_group_nonmagnetic`, with the
external symmetry engine abstracted into the input list `ops` of
real-space rotation matrices and the basis-change matrix `A` (with its
numerical inverse `Ainv`) passed explicitly.  The list is seeded with
the transformed inversion generator. -/
def _get_reciprocal_point_group_nonmagnetic (A Ainv : M3) (ops : List M3) : List M3 :=
  ops.foldl (rpgStep A Ainv) [transformOp A Ainv RGen]

/-! ## The permutation-invariant set-equality test -/

/-- The `for b in B` loop of `_is_permutation_eq`: consume one unit of
budget for each `b`, failing on a missing key or an exhausted budget. -/
def permEqLoop {α : Type} [DecidableEq α] : (α → Option ℕ) → List α → Bool
  | _, [] => true
  | count, b :: bs =>
    match count b with
    | none => false
    | some 0 => false
    | some (n + 1) => permEqLoop (fun x => if x = b then some n else count x) bs

/-- Model of `Z2PackWF._is_permutation_eq`.  The Python dict is keyed by `str(a)`;
string equality of rendered arrays is equality of the (exact, rounded)
values, so the budget map is keyed by the values themselves.  Every
`a ∈ A` receives budget `1` (`count[str(a)] = 1` overwrites, it does not
accumulate). -/
def _is_permutation_eq {α : Type} [DecidableEq α] (A B : List α) : Bool :=
  permEqLoop (fun x => if x ∈ A then some 1 else none) B

/-! ## The six canonical surfaces and the orbit reducer -/

/-- The points `itertools.product((0.0, 0.5), repeat=3)`. -/
def trimPts : List Pt :=
  [(0, 0, 0), (0, 0, 1/2), (0, 1/2, 0), (0, 1/2, 1/2),
   (1/2, 0, 0), (1/2, 0, 1/2), (1/2, 1/2, 0), (1/2, 1/2, 1/2)]

/-- Indexing `pt[coord]`. -/
def ptCoord (p : Pt) : ℕ → ℚ
  | 0 => p.1
  | 1 => p.2.1
  | _ => p.2.2

/-- The special points of one surface: `[pt for pt in trim_pts if pt[coord] == plane_num/2]`. -/
def planePts (coord planeNum : ℕ) : List Pt :=
  trimPts.filter (fun pt => ptCoord pt coord = (planeNum : ℚ) / 2)

def symbols : List String := ["x", "y", "z"]

/-- The label `"k%s_%s" % (symbols[coord], str(plane_num))`. -/
def planeLabel (coord planeNum : ℕ) : String :=
  "k" ++ symbols.getD coord "" ++ "_" ++ toString planeNum

/-- The `planes` dict of `get_equiv_planes`, in insertion order. -/
def planesList : List (String × List Pt) :=
  (List.range 3).flatMap (fun coord =>
    (List.range 2).map (fun planeNum => (planeLabel coord planeNum, planePts coord planeNum)))

/-- The six surface labels, in the iteration order of the source dicts. -/
def surfaceLabels : List String := planesList.map Prod.fst

/-- The list `trans_pts = [np.dot(op, pt) % 1.0 for pt in planes[plane]]`. -/
def transPts (op : M3) (pts : List Pt) : List Pt :=
  pts.map (fun pt => ptMod1 (mApply op pt))

/-- The body of the `for other_plane in planes.keys()` loop: skip the
plane itself, and record a match not already recorded. -/
def innerStep (plane : String) (tps : List Pt) (acc : List String)
    (other : String × List Pt) : List String :=
  if other.1 = plane then acc
  else if _is_permutation_eq other.2 tps ∧ other.1 ∉ acc then acc ++ [other.1]
  else acc

/-- The `for other_plane in planes.keys()` loop for one `(plane, op)` pair. -/
def equivInner (plane : String) (tps : List Pt) (acc : List String) : List String :=
  planesList.foldl (innerStep plane tps) acc

/-- The equivalence list accumulated for one plane over all operations. -/
def equivOf (rpg : List M3) (plane : String) (pts : List Pt) : List String :=
  rpg.foldl (fun acc op => equivInner plane (transPts op pts) acc) []

/-- Model of `Z2PackWF.get_equiv_planes`, with the reciprocal point group passed
explicitly (the source computes it from the structure via
`_get_reciprocal_point_group_nonmagnetic`). -/
def get_equiv_planes (rpg : List M3) : List (String × List String) :=
  planesList.map (fun pr => (pr.1, equivOf rpg pr.1 pr.2))

/-! ## The surface selector (lines 319–332 of `core.py`) -/

def seedSurfaces : List String := ["kx_0", "kx_1"]

def allSurfaces : List String := ["kx_0", "kx_1", "ky_0", "ky_1", "kz_0", "kz_1"]

/-- The surface-selection block of `get_wf`: seed with `kx_0`, `kx_1`;
with symmetry reduction, add each remaining surface whose equivalence
list meets none of the surfaces selected so far; without symmetry
reduction, take all six surfaces. -/
def selStep (surfaces : List String) (pr : String × List String) : List String :=
  let mark := surfaces.all (fun s => decide (s ∉ pr.2))
  if mark ∧ pr.1 ∉ surfaces then surfaces ++ [pr.1] else surfaces

def selectSurfaces (symmetryReduction : Bool) (equivPlanes : List (String × List String)) :
    List String :=
  if symmetryReduction then equivPlanes.foldl selStep seedSurfaces
  else allSurfaces

/-- The surfaces on which `get_wf` creates a `Z2PackFW` job. -/
def retainedSurfaces (rpg : List M3) (symmetryReduction : Bool) : List String :=
  selectSurfaces symmetryReduction (get_equiv_planes rpg)

/-! ## The workflow graph assembly of `get_wf` (lines 284–439 of `core.py`)

A `JobNode` is the plan-time content of one firework: its identity (in
the source, Python object identity; here, a consecutively assigned id),
its name, the surface label for `Z2PackFW` nodes, the ids of its parent
nodes, and its INCAR parameter bag as accumulated by the
`add_modify_incar` powerups. -/

/-- A value in an INCAR-style parameter bag. -/
inductive IncVal
  | i (n : ℤ)
  | s (v : String)
  | q (x : ℚ)
deriving DecidableEq, Repr

/-- A plan-time job node. -/
structure JobNode where
  id : ℕ
  name : String
  surface : Option String
  parents : List ℕ
  incar : List (String × IncVal)
deriving DecidableEq, Repr

/-- Set one key of a parameter bag, Python `d[k] = v`. -/
def setKey (d : List (String × IncVal)) (k : String) (v : IncVal) : List (String × IncVal) :=
  if (d.map Prod.fst).contains k then d.map (fun p => if p.1 = k then (k, v) else p)
  else d ++ [(k, v)]

/-- Python `dict.update`: for colliding keys, later calls overwrite
earlier ones. -/
def dictUpdate (d u : List (String × IncVal)) : List (String × IncVal) :=
  u.foldl (fun d p => setKey d p.1 p.2) d

/-- Matching of `fw_name_constraint` (no constraint matches every node). -/
def nameMatches (constraint : Option String) (name : String) : Bool :=
  match constraint with
  | none => true
  | some k => name = k

/-- The per-node effect of the external atomate powerup
`add_modify_incar`: update the INCAR parameter bag when the name matches
the `fw_name_constraint`.  Only the parameter bag changes; identity,
name, surface and parents are untouched. -/
def modifyNode (upd : List (String × IncVal)) (constraint : Option String)
    (nd : JobNode) : JobNode :=
  if nameMatches constraint nd.name then { nd with incar := dictUpdate nd.incar upd }
  else nd

/-- Interface model of `add_modify_incar` on a whole workflow. -/
def add_modify_incar (wf : List JobNode) (upd : List (String × IncVal))
    (constraint : Option String) : List JobNode :=
  wf.map (modifyNode upd constraint)

/-- The node `opt_fw = OptimizeFW(...)`: no parents. -/
def optFw : JobNode := ⟨0, "structure optimization", none, [], []⟩

/-- The node `static_fw = StaticFW(..., parents=[opt_fw])`. -/
def staticFw : JobNode := ⟨1, "static", none, [0], []⟩

/-- The `for surface in surfaces` loop: one `Z2PackFW(parents=[static_fw],
surface=surface, ...)` per retained surface, ids assigned consecutively. -/
def z2Nodes : ℕ → List String → List JobNode
  | _, [] => []
  | i, srf :: rest => ⟨i, "z2pack", some srf, [1], []⟩ :: z2Nodes (i + 1) rest

/-- The node `analysis_fw = InvariantFW(parents=z2pack_fws, ...)`. -/
def analysisFw (surfaces : List String) : JobNode :=
  ⟨2 + surfaces.length, "invariant", none, (z2Nodes 2 surfaces).map JobNode.id, []⟩

/-- The list `fws = [opt_fw, static_fw] + z2pack_fws + [analysis_fw]`. -/
def baseFws (surfaces : List String) : List JobNode :=
  [optFw, staticFw] ++ z2Nodes 2 surfaces ++ [analysisFw surfaces]

/-- The graph assembly of `Z2PackWF.get_wf`, after the config lookups:
build the four node groups, then apply the `add_modify_incar` powerups.
`larsen`, `cheon` and `gorai` are the three dimensionality
classifications from the external `StructureDimensionality` classifier;
the vdW branch applies when any of them equals 2.  The solver command
and persistence target are passed through to the external executor and
do not affect the plan shape. -/
def buildPlan (rpg : List M3) (larsen cheon gorai : ℤ) (symmetryReduction : Bool) :
    List JobNode :=
  let fws := baseFws (retainedSurfaces rpg symmetryReduction)
  let fws :=
    if [larsen, cheon, gorai].any (fun dim => dim = 2) then
      add_modify_incar
        (add_modify_incar
          (add_modify_incar fws
            [("IVDW", .i 11), ("EDIFFG", .q (1/200)), ("IBRION", .i 2), ("NSW", .i 100)]
            (some "structure optimization"))
          [("IVDW", .i 11)] (some "static"))
        [("IVDW", .i 11)] (some "z2pack")
    else
      add_modify_incar fws
        [("EDIFFG", .q (1/200)), ("IBRION", .i 2), ("NSW", .i 100)]
        (some "structure optimization")
  let fws := add_modify_incar fws
    [("ADDGRID", .s ".TRUE."), ("LASPH", .s ".TRUE."), ("GGA", .s "PS"), ("NCORE", .i 1)]
    none
  add_modify_incar fws [("PREC", .s "Accurate")] (some "static")

/-- The composed per-node effect of the four `add_modify_incar` powerup
calls of `get_wf`; `buildPlan` is the pointwise application of this map
to `baseFws` (see `buildPlan_eq_map`). -/
def planMod (larsen cheon gorai : ℤ) (nd : JobNode) : JobNode :=
  modifyNode [("PREC", .s "Accurate")] (some "static")
    (modifyNode
      [("ADDGRID", .s ".TRUE."), ("LASPH", .s ".TRUE."), ("GGA", .s "PS"), ("NCORE", .i 1)]
      none
      (if [larsen, cheon, gorai].any (fun dim => dim = 2) then
        modifyNode [("IVDW", .i 11)] (some "z2pack")
          (modifyNode [("IVDW", .i 11)] (some "static")
            (modifyNode
              [("IVDW", .i 11), ("EDIFFG", .q (1/200)), ("IBRION", .i 2), ("NSW", .i 100)]
              (some "structure optimization") nd))
      else
        modifyNode [("EDIFFG", .q (1/200)), ("IBRION", .i 2), ("NSW", .i 100)]
          (some "structure optimization") nd))

/-- Process-wide default for the solver command (atomate `VASP_CMD`),
supplied by the embedding application. -/
def VASP_CMD_setting : String := "vasp"

/-- Process-wide default for the persistence target (atomate `DB_FILE`). -/
def DB_FILE_setting : String := "db.json"

/-- Association-list lookup, Python `d[k]` (`none` models the raised
`KeyError`). -/
def lookupStr (d : List (String × String)) (k : String) : Option String :=
  match d with
  | [] => none
  | p :: rest => if p.1 = k then some p.2 else lookupStr rest k

/-- Model of `Z2PackWF.get_wf(c)`.  Here `c = c or {"VASP_CMD": VASP_CMD, "DB_FILE":
DB_FILE}` treats both `None` and an empty dict as falsy; afterwards
`OptimizeFW(..., vasp_cmd=c["VASP_CMD"], db_file=c["DB_FILE"])` looks the
two keys up directly, so a missing key raises a `KeyError` while the
arguments are evaluated, before any firework exists. -/
def z2pack_get_wf (rpg : List M3) (larsen cheon gorai : ℤ) (symmetryReduction : Bool)
    (c : Option (List (String × String))) : Except String (List JobNode) :=
  let cc := match c with
    | none => [("VASP_CMD", VASP_CMD_setting), ("DB_FILE", DB_FILE_setting)]
    | some l =>
      if l.isEmpty then [("VASP_CMD", VASP_CMD_setting), ("DB_FILE", DB_FILE_setting)] else l
  match lookupStr cc "VASP_CMD" with
  | none => .error "KeyError: VASP_CMD"
  | some _ =>
    match lookupStr cc "DB_FILE" with
    | none => .error "KeyError: DB_FILE"
    | some _ => .ok (buildPlan rpg larsen cheon gorai symmetryReduction)

/-- The surface labels of the `Z2PackFW` nodes of an assembled graph. -/
def z2Surfaces (ns : List JobNode) : List String :=
  ns.filterMap (fun nd => if nd.name = "z2pack" then nd.surface else none)

/-- The plan-shape projection of a node: everything except the INCAR bag. -/
def stripIncar (nd : JobNode) : ℕ × String × Option String × List ℕ :=
  (nd.id, nd.name, nd.surface, nd.parents)

/-! ## Concrete operation lists used as test inputs -/

/-- Row entry of a signed permutation matrix: `si` at column `pi`. -/
def ent (colIdx : ℕ) (si : ℚ) (j : ℕ) : ℚ := if colIdx = j then si else 0

/-- The signed permutation matrix with row `k` equal to `s_k · e_{p_k}`. -/
def mkSignedPerm (p : ℕ × ℕ × ℕ) (s : ℚ × ℚ × ℚ) : M3 :=
  ⟨ent p.1 s.1 0, ent p.1 s.1 1, ent p.1 s.1 2,
   ent p.2.1 s.2.1 0, ent p.2.1 s.2.1 1, ent p.2.1 s.2.1 2,
   ent p.2.2 s.2.2 0, ent p.2.2 s.2.2 1, ent p.2.2 s.2.2 2⟩

/-- The full cubic point group `O_h`: the 48 signed permutation matrices. -/
def cubic48 : List M3 :=
  ([(0, 1, 2), (0, 2, 1), (1, 0, 2), (1, 2, 0), (2, 0, 1), (2, 1, 0)] :
      List (ℕ × ℕ × ℕ)).flatMap
    (fun p =>
      ([(1, 1, 1), (1, 1, -1), (1, -1, 1), (1, -1, -1),
        (-1, 1, 1), (-1, 1, -1), (-1, -1, 1), (-1, -1, -1)] :
          List (ℚ × ℚ × ℚ)).map (fun s => mkSignedPerm p s))

/-- A rational that is an integer (denominator 1 in lowest terms).
Every entry of a reciprocal-basis symmetry operation is an integer: the
operation maps the reciprocal lattice to itself, and the 2-decimal
rounding of the builder only absorbs floating-point noise. -/
def isInt (q : ℚ) : Prop := q.den = 1

instance (q : ℚ) : Decidable (isInt q) := inferInstanceAs (Decidable (q.den = 1))

/-- An integer 3×3 matrix. -/
def m3IsInt (m : M3) : Prop :=
  isInt m.a00 ∧ isInt m.a01 ∧ isInt m.a02 ∧ isInt m.a10 ∧ isInt m.a11 ∧ isInt m.a12 ∧
    isInt m.a20 ∧ isInt m.a21 ∧ isInt m.a22

instance (m : M3) : Decidable (m3IsInt m) :=
  inferInstanceAs (Decidable (_ ∧ _ ∧ _ ∧ _ ∧ _ ∧ _ ∧ _ ∧ _ ∧ _))

/-- The determinant of a 3×3 matrix. -/
def m3Det (m : M3) : ℚ :=
  m.a00 * (m.a11 * m.a22 - m.a12 * m.a21) - m.a01 * (m.a10 * m.a22 - m.a12 * m.a20) +
    m.a02 * (m.a10 * m.a21 - m.a11 * m.a20)

/-- The adjugate (transposed cofactor matrix): `m3Adj m * m = m3Det m • 1`. -/
def m3Adj (m : M3) : M3 :=
  ⟨m.a11 * m.a22 - m.a12 * m.a21, -(m.a01 * m.a22 - m.a02 * m.a21),
   m.a01 * m.a12 - m.a02 * m.a11,
   -(m.a10 * m.a22 - m.a12 * m.a20), m.a00 * m.a22 - m.a02 * m.a20,
   -(m.a00 * m.a12 - m.a02 * m.a10),
   m.a10 * m.a21 - m.a11 * m.a20, -(m.a00 * m.a21 - m.a01 * m.a20),
   m.a00 * m.a11 - m.a01 * m.a10⟩

/-- The two offset classes of surfaces: each surface can only be
equivalent to the two other surfaces with the same fractional offset. -/
def offsetClass (p : String) : List String :=
  if p = "kx_0" then ["ky_0", "kz_0"]
  else if p = "kx_1" then ["ky_1", "kz_1"]
  else if p = "ky_0" then ["kx_0", "kz_0"]
  else if p = "ky_1" then ["kx_1", "kz_1"]
  else if p = "kz_0" then ["kx_0", "ky_0"]
  else if p = "kz_1" then ["kx_1", "ky_1"]
  else []

/-! ## Basic algebra of `M3` -/

theorem m3_mul_eq (x y : M3) : x * y = m3Mul x y := rfl

theorem m3_neg_eq (x : M3) : -x = m3Neg x := rfl

theorem m3_one_eq : (1 : M3) = ⟨1, 0, 0, 0, 1, 0, 0, 0, 1⟩ := rfl

theorem m3_neg_neg (x : M3) : -(-x) = x := by
  cases x
  simp [m3_neg_eq, m3Neg]

theorem m3_neg_mul (x y : M3) : (-x) * y = -(x * y) := by
  cases x
  cases y
  simp only [m3_mul_eq, m3_neg_eq, m3Neg, m3Mul, M3.mk.injEq]
  refine ⟨?_, ?_, ?_, ?_, ?_, ?_, ?_, ?_, ?_⟩ <;> ring

theorem m3_mul_neg (x y : M3) : x * (-y) = -(x * y) := by
  cases x
  cases y
  simp only [m3_mul_eq, m3_neg_eq, m3Neg, m3Mul, M3.mk.injEq]
  refine ⟨?_, ?_, ?_, ?_, ?_, ?_, ?_, ?_, ?_⟩ <;> ring

theorem m3_one_mul (x : M3) : (1 : M3) * x = x := by
  cases x
  simp only [m3_mul_eq, m3_one_eq, m3Mul, M3.mk.injEq]
  refine ⟨?_, ?_, ?_, ?_, ?_, ?_, ?_, ?_, ?_⟩ <;> ring

theorem rgen_mul (x : M3) : RGen * x = -x := by
  have : RGen = -(1 : M3) := rfl
  rw [this, m3_neg_mul, m3_one_mul]

theorem m3_around2_one : m3Around2 (1 : M3) = 1 := by with_unfolding_all decide

theorem m3_around2_neg_one : m3Around2 (-1 : M3) = -1 := by with_unfolding_all decide

/-! ## The semantics of `_is_permutation_eq` -/

theorem permEqLoop_congr {α : Type} [DecidableEq α] {c₁ c₂ : α → Option ℕ}
    (h : ∀ x, c₁ x = c₂ x) (B : List α) : permEqLoop c₁ B = permEqLoop c₂ B := by
  induction B generalizing c₁ c₂ with
  | nil => rfl
  | cons b bs ih =>
    simp only [permEqLoop, h b]
    cases c₂ b with
    | none => rfl
    | some n =>
      cases n with
      | zero => rfl
      | succ m => exact ih (fun x => by by_cases hx : x = b <;> simp [hx, h x])

/-- The budget map keyed on `S` (budget 1) and `T` (budget 0) accepts `B`
exactly when `B` is duplicate-free and drawn from `S`. -/
theorem permEqLoop_mkCount {α : Type} [DecidableEq α] (B : List α) :
    ∀ S T : List α, (∀ x, x ∈ S → x ∈ T → False) →
      (permEqLoop (fun x => if x ∈ S then some 1 else if x ∈ T then some 0 else none) B = true ↔
        B.Nodup ∧ ∀ b ∈ B, b ∈ S) := by
  induction B with
  | nil => intro S T _; simp [permEqLoop]
  | cons b bs ih =>
    intro S T hdisj
    by_cases hbS : b ∈ S
    · have hupd :
          ∀ x, (if x = b then some 0
              else if x ∈ S then some 1 else if x ∈ T then some 0 else none) =
            (if x ∈ S.filter (fun y => y ≠ b) then some 1
              else if x ∈ b :: T then some 0 else none) := by
        intro x
        by_cases hx : x = b
        · simp [hx]
        · by_cases hxS : x ∈ S <;> simp [hx, hxS, List.mem_filter]
      have hdisj' : ∀ x, x ∈ S.filter (fun y => y ≠ b) → x ∈ b :: T → False := by
        intro x hx1 hx2
        rw [List.mem_filter] at hx1
        rcases List.mem_cons.1 hx2 with h | h
        · simp [h] at hx1
        · exact hdisj x hx1.1 h
      have hstep := ih (S.filter (fun y => y ≠ b)) (b :: T) hdisj'
      simp only [permEqLoop, if_pos hbS]
      rw [permEqLoop_congr hupd, hstep]
      simp only [List.nodup_cons, List.mem_filter, List.mem_cons]
      constructor
      · rintro ⟨hnd, hsub⟩
        have hb_not : b ∉ bs := by
          intro hmem
          have := hsub b hmem
          simp at this
        refine ⟨⟨hb_not, hnd⟩, ?_⟩
        intro x hx
        rcases hx with rfl | hx
        · exact hbS
        · have := hsub x hx
          simp at this
          exact this.1
      · rintro ⟨⟨hb_not, hnd⟩, hsub⟩
        refine ⟨hnd, ?_⟩
        intro x hx
        have hxS : x ∈ S := hsub x (Or.inr hx)
        have hxb : ¬ x = b := by
          rintro rfl
          exact hb_not hx
        simp [hxS, hxb]
    · have hcount :
          (if b ∈ S then some 1 else if b ∈ T then some 0 else none) = some 0 ∨
            (if b ∈ S then some 1 else if b ∈ T then some 0 else none) = none := by
        by_cases hbT : b ∈ T <;> simp [hbS, hbT]
      have hLHS :
          permEqLoop (fun x => if x ∈ S then some 1 else if x ∈ T then some 0 else none)
            (b :: bs) = false := by
        rcases hcount with h | h <;> simp [permEqLoop, h]
      rw [hLHS]
      simp only [Bool.false_eq_true, false_iff]
      rintro ⟨-, hsub⟩
      exact hbS (hsub b (List.mem_cons_self b bs))

/-- The test `_is_permutation_eq A B` holds exactly when `B` is duplicate-free and
every element of `B` occurs in `A`. -/
theorem is_permutation_eq_iff {α : Type} [DecidableEq α] (A B : List α) :
    _is_permutation_eq A B = true ↔ B.Nodup ∧ ∀ b ∈ B, b ∈ A := by
  have hc : ∀ x, (if x ∈ A then some 1 else none) =
      (if x ∈ A then some 1 else if x ∈ ([] : List α) then some 0 else none) := by
    intro x; by_cases hx : x ∈ A <;> simp [hx]
  rw [_is_permutation_eq, permEqLoop_congr hc B]
  exact permEqLoop_mkCount B A [] (by simp)

/-- C10: `_is_permutation_eq(A, B)` only checks that every element of `B`
occurs in `A`, with a budget of one per distinct value: it accepts the
empty `B` for every `A`, it accepts every duplicate-free `B` drawn from
`A` even when `B` omits elements of `A`, and it coincides with multiset
equality when `A` is duplicate-free and `A` and `B` have equal length. -/
theorem claim_C10_is_permutation_eq_semantics {α : Type} [DecidableEq α] (A B : List α) :
    (_is_permutation_eq A B = true ↔ B.Nodup ∧ ∀ b ∈ B, b ∈ A) ∧
      _is_permutation_eq A ([] : List α) = true ∧
      (A.Nodup → A.length = B.length → (_is_permutation_eq A B = true ↔ A.Perm B)) := by
  refine ⟨is_permutation_eq_iff A B, rfl, ?_⟩
  intro hA hlen
  rw [is_permutation_eq_iff]
  constructor
  · rintro ⟨hnd, hsub⟩
    have hsp : B.Subperm A := List.subperm_of_subset hnd hsub
    exact (hsp.perm_of_length_le (le_of_eq hlen)).symm
  · intro hperm
    refine ⟨hperm.nodup hA, ?_⟩
    intro b hb
    exact hperm.symm.subset hb

/-- Witness for C10 at concrete inputs, discharging both hypotheses of the
multiset-equality part. -/
theorem claim_C10_witness :
    _is_permutation_eq ([0, 1] : List ℕ) [1, 0] = true ↔ ([0, 1] : List ℕ).Perm [1, 0] :=
  (claim_C10_is_permutation_eq_semantics [0, 1] [1, 0]).2.2 (by decide) (by decide)

/-! ## Fold lemmas for the reciprocal point-group builder -/

theorem mem_rpgStep_left {A Ainv : M3} {acc : List M3} {x rawOp : M3} (h : x ∈ acc) :
    x ∈ rpgStep A Ainv acc rawOp := by
  simp only [rpgStep]
  refine List.mem_append_left _ ?_
  by_cases hmem : transformOp A Ainv rawOp ∈ acc <;> simp [hmem, h]

theorem rpg_foldl_mono {A Ainv : M3} {x : M3} (l : List M3) :
    ∀ acc : List M3, x ∈ acc → x ∈ List.foldl (rpgStep A Ainv) acc l := by
  induction l with
  | nil => intro acc h; simpa using h
  | cons hd tl ih => intro acc h; exact ih _ (mem_rpgStep_left h)

theorem rpg_pair_mem {A Ainv : M3} {rawOp : M3} (l : List M3) :
    ∀ acc : List M3, rawOp ∈ l →
      transformOp A Ainv rawOp ∈ List.foldl (rpgStep A Ainv) acc l ∧
        -(transformOp A Ainv rawOp) ∈ List.foldl (rpgStep A Ainv) acc l := by
  induction l with
  | nil => intro acc h; cases h
  | cons hd tl ih =>
    intro acc hmem
    rcases List.mem_cons.1 hmem with heq | hmem
    · subst heq
      constructor
      · refine rpg_foldl_mono tl _ ?_
        simp only [rpgStep]
        refine List.mem_append_left _ ?_
        by_cases h1 : transformOp A Ainv rawOp ∈ acc <;> simp [h1]
      · refine rpg_foldl_mono tl _ ?_
        simp only [rpgStep, rgen_mul]
        by_cases h2 : -(transformOp A Ainv rawOp) ∈ acc
        · refine List.mem_append_left _ ?_
          by_cases h1 : transformOp A Ainv rawOp ∈ acc <;> simp [h1, h2]
        · refine List.mem_append_right _ ?_
          simp [h2]
    · exact ih _ hmem

theorem rpg_mem_char {A Ainv : M3} (l : List M3) :
    ∀ (acc : List M3) (x : M3), x ∈ List.foldl (rpgStep A Ainv) acc l →
      x ∈ acc ∨ ∃ op ∈ l, x = transformOp A Ainv op ∨ x = -(transformOp A Ainv op) := by
  induction l with
  | nil => intro acc x h; exact Or.inl (by simpa using h)
  | cons hd tl ih =>
    intro acc x h
    rcases ih _ x h with hacc | ⟨op, hop, hx⟩
    · simp only [rpgStep, rgen_mul] at hacc
      rcases List.mem_append.1 hacc with h1 | h2
      · by_cases hmem : transformOp A Ainv hd ∈ acc
        · rw [if_pos hmem] at h1
          exact Or.inl h1
        · rw [if_neg hmem] at h1
          rcases List.mem_append.1 h1 with h1a | h1b
          · exact Or.inl h1a
          · exact Or.inr ⟨hd, List.mem_cons_self hd tl, Or.inl (by simpa using h1b)⟩
      · by_cases hmem : -(transformOp A Ainv hd) ∈ acc
        · rw [if_pos hmem] at h2
          cases h2
        · rw [if_neg hmem] at h2
          exact Or.inr ⟨hd, List.mem_cons_self hd tl, Or.inr (by simpa using h2)⟩
    · exact Or.inr ⟨op, List.mem_cons_of_mem hd hop, hx⟩

theorem rpg_nodup {A Ainv : M3} (l : List M3) :
    ∀ acc : List M3, acc.Nodup →
      (∀ op ∈ l, transformOp A Ainv op ≠ -(transformOp A Ainv op)) →
      (List.foldl (rpgStep A Ainv) acc l).Nodup := by
  induction l with
  | nil => intro acc hacc _; simpa using hacc
  | cons hd tl ih =>
    intro acc hacc hne
    refine ih _ ?_ (fun op hop => hne op (List.mem_cons_of_mem hd hop))
    have hop_ne : transformOp A Ainv hd ≠ -(transformOp A Ainv hd) :=
      hne hd (List.mem_cons_self hd tl)
    simp only [rpgStep, rgen_mul]
    by_cases h1 : transformOp A Ainv hd ∈ acc <;>
      by_cases h2 : -(transformOp A Ainv hd) ∈ acc
    · simp [h1, h2, hacc]
    · rw [if_pos h1, if_neg h2]
      refine List.Nodup.append hacc (List.nodup_singleton _) ?_
      exact fun x hx hx' => h2 ((List.mem_singleton.1 hx') ▸ hx)
    · rw [if_neg h1, if_pos h2, List.append_nil]
      refine List.Nodup.append hacc (List.nodup_singleton _) ?_
      exact fun x hx hx' => h1 ((List.mem_singleton.1 hx') ▸ hx)
    · rw [if_neg h1, if_neg h2]
      have hn1 : (acc ++ [transformOp A Ainv hd]).Nodup := by
        refine List.Nodup.append hacc (List.nodup_singleton _) ?_
        exact fun x hx hx' => h1 ((List.mem_singleton.1 hx') ▸ hx)
      refine List.Nodup.append hn1 (List.nodup_singleton _) ?_
      intro x hx hx'
      have hxeq : x = -(transformOp A Ainv hd) := List.mem_singleton.1 hx'
      subst hxeq
      rcases List.mem_append.1 hx with hmem | hmem
      · exact h2 hmem
      · exact hop_ne (List.mem_singleton.1 hmem).symm

theorem transformOp_one {A Ainv : M3} (hA : A * Ainv = 1) : transformOp A Ainv 1 = 1 := by
  unfold transformOp
  rw [show m3Mul (1 : M3) Ainv = Ainv from m3_one_mul Ainv,
    show m3Mul A Ainv = (1 : M3) from hA, m3_around2_one]

theorem transformOp_rgen {A Ainv : M3} (hA : A * Ainv = 1) : transformOp A Ainv RGen = -1 := by
  unfold transformOp
  rw [show m3Mul RGen Ainv = -Ainv from rgen_mul Ainv,
    show m3Mul A (-Ainv) = -(m3Mul A Ainv) from m3_mul_neg A Ainv,
    show m3Mul A Ainv = (1 : M3) from hA, m3_around2_neg_one]

/-- C2: for every structure (the symmetry engine always reports the
identity rotation, and `Ainv` is the numerical inverse of the basis
change `A`), the list built by `_get_reciprocal_point_group_nonmagnetic`
contains the identity matrix and the inversion generator `-1` (which is
exactly the negated identity transformed into the fractional reciprocal
basis, the seed of the list). -/
theorem claim_C2_recip_group_contains_id_and_inversion (A Ainv : M3) (ops : List M3)
    (hA : A * Ainv = 1) (hid : (1 : M3) ∈ ops) :
    (1 : M3) ∈ _get_reciprocal_point_group_nonmagnetic A Ainv ops ∧
      (-1 : M3) ∈ _get_reciprocal_point_group_nonmagnetic A Ainv ops ∧
      transformOp A Ainv RGen ∈ _get_reciprocal_point_group_nonmagnetic A Ainv ops := by
  have hseed : transformOp A Ainv RGen ∈ _get_reciprocal_point_group_nonmagnetic A Ainv ops :=
    rpg_foldl_mono ops _ (by simp)
  have h1 : transformOp A Ainv 1 ∈ _get_reciprocal_point_group_nonmagnetic A Ainv ops :=
    (rpg_pair_mem ops _ hid).1
  rw [transformOp_one hA] at h1
  exact ⟨h1, (transformOp_rgen hA) ▸ hseed, hseed⟩

/-- Witness for C2: trivial basis change, point group `[1]`. -/
theorem claim_C2_witness :
    (1 : M3) ∈ _get_reciprocal_point_group_nonmagnetic 1 1 [1] ∧
      (-1 : M3) ∈ _get_reciprocal_point_group_nonmagnetic 1 1 [1] :=
  ⟨(claim_C2_recip_group_contains_id_and_inversion 1 1 [1] (m3_one_mul 1) (by simp)).1,
   (claim_C2_recip_group_contains_id_and_inversion 1 1 [1] (m3_one_mul 1) (by simp)).2.1⟩

/-- C7: under the symmetry-engine contract (the identity rotation is
reported, and no transformed rotation rounds to its own negation — true
of any rotation of determinant ±1), the returned list is closed under
multiplication by the inversion generator (the negation of every element
is also present) and contains no two equal elements. -/
theorem claim_C7_recip_group_closed_and_nodup (A Ainv : M3) (ops : List M3)
    (hA : A * Ainv = 1) (hid : (1 : M3) ∈ ops)
    (hproper : ∀ op ∈ ops, transformOp A Ainv op ≠ -(transformOp A Ainv op)) :
    (∀ g ∈ _get_reciprocal_point_group_nonmagnetic A Ainv ops,
        -g ∈ _get_reciprocal_point_group_nonmagnetic A Ainv ops) ∧
      (_get_reciprocal_point_group_nonmagnetic A Ainv ops).Nodup := by
  constructor
  · intro g hg
    rcases rpg_mem_char ops _ g hg with hseed | ⟨op, hop, hx⟩
    · have hgeq : g = -(1 : M3) := by
        have := List.mem_singleton.1 hseed
        rwa [transformOp_rgen hA] at this
      have h1 : transformOp A Ainv 1 ∈ _get_reciprocal_point_group_nonmagnetic A Ainv ops :=
        (rpg_pair_mem ops _ hid).1
      rw [transformOp_one hA] at h1
      rw [hgeq, m3_neg_neg]
      exact h1
    · rcases hx with rfl | rfl
      · exact (rpg_pair_mem ops _ hop).2
      · rw [m3_neg_neg]
        exact (rpg_pair_mem ops _ hop).1
  · exact rpg_nodup ops _ (List.nodup_singleton _) hproper

/-- Witness for C7: trivial basis change, point group `[1]`. -/
theorem claim_C7_witness :
    (∀ g ∈ _get_reciprocal_point_group_nonmagnetic 1 1 [1],
        -g ∈ _get_reciprocal_point_group_nonmagnetic 1 1 [1]) ∧
      (_get_reciprocal_point_group_nonmagnetic 1 1 [1]).Nodup :=
  claim_C7_recip_group_closed_and_nodup 1 1 [1] (m3_one_mul 1) (by simp)
    (by with_unfolding_all decide)

/-! ## Membership structure of the equivalence map -/

theorem mem_inner_foldl {plane : String} {tps : List Pt} (l : List (String × List Pt)) :
    ∀ (acc : List String) (x : String),
      x ∈ l.foldl (innerStep plane tps) acc ↔
        x ∈ acc ∨ ∃ pr ∈ l, pr.1 = x ∧ pr.1 ≠ plane ∧
          _is_permutation_eq pr.2 tps = true := by
  induction l with
  | nil => intro acc x; simp
  | cons hd tl ih =>
    intro acc x
    rw [List.foldl_cons, ih]
    simp only [List.mem_cons, exists_eq_or_imp]
    by_cases hp : hd.1 = plane
    · have hstep : innerStep plane tps acc hd = acc := by simp [innerStep, hp]
      rw [hstep]
      simp only [hp]
      tauto
    · by_cases hc : _is_permutation_eq hd.2 tps = true
      · by_cases hm : hd.1 ∈ acc
        · have hstep : innerStep plane tps acc hd = acc := by simp [innerStep, hp, hm]
          rw [hstep]
          constructor
          · intro h; tauto
          · rintro (h | ⟨h1, -, -⟩ | h)
            · exact Or.inl h
            · exact Or.inl (h1 ▸ hm)
            · tauto
        · have hstep : innerStep plane tps acc hd = acc ++ [hd.1] := by
            simp [innerStep, hp, hm, hc]
          rw [hstep]
          simp only [List.mem_append, List.mem_singleton]
          constructor
          · rintro ((h | h) | h)
            · exact Or.inl h
            · exact Or.inr (Or.inl ⟨h.symm, hp, hc⟩)
            · tauto
          · rintro (h | ⟨h1, -, -⟩ | h)
            · exact Or.inl (Or.inl h)
            · exact Or.inl (Or.inr h1.symm)
            · tauto
      · have hstep : innerStep plane tps acc hd = acc := by simp [innerStep, hp, hc]
        rw [hstep]
        constructor
        · intro h; tauto
        · rintro (h | ⟨-, -, h3⟩ | h)
          · exact Or.inl h
          · exact absurd h3 hc
          · tauto

theorem nodup_inner_foldl {plane : String} {tps : List Pt} (l : List (String × List Pt)) :
    ∀ acc : List String, acc.Nodup → (l.foldl (innerStep plane tps) acc).Nodup := by
  induction l with
  | nil => intro acc h; simpa using h
  | cons hd tl ih =>
    intro acc hacc
    refine ih _ ?_
    unfold innerStep
    by_cases hp : hd.1 = plane
    · simpa [hp] using hacc
    · by_cases hcm : _is_permutation_eq hd.2 tps = true ∧ hd.1 ∉ acc
      · rw [if_neg hp, if_pos hcm]
        refine List.Nodup.append hacc (List.nodup_singleton _) ?_
        exact fun x hx hx' => hcm.2 ((List.mem_singleton.1 hx') ▸ hx)
      · rw [if_neg hp, if_neg hcm]
        exact hacc

theorem mem_equivOf_foldl {plane : String} {pts : List Pt} (l : List M3) :
    ∀ (acc : List String) (x : String),
      x ∈ l.foldl (fun acc op => equivInner plane (transPts op pts) acc) acc ↔
        x ∈ acc ∨ ∃ op ∈ l, ∃ pr ∈ planesList, pr.1 = x ∧ pr.1 ≠ plane ∧
          _is_permutation_eq pr.2 (transPts op pts) = true := by
  induction l with
  | nil => intro acc x; simp
  | cons hd tl ih =>
    intro acc x
    rw [List.foldl_cons, ih]
    rw [show equivInner plane (transPts hd pts) acc =
        planesList.foldl (innerStep plane (transPts hd pts)) acc from rfl]
    rw [mem_inner_foldl planesList acc x]
    simp only [List.mem_cons, exists_eq_or_imp]
    exact or_assoc

/-- The membership characterization of one plane equivalence list: a
label is recorded for `plane` exactly when some operation transports the
special points of `plane` onto the special-point set of that label. -/
theorem mem_equivOf {rpg : List M3} {plane : String} {pts : List Pt} (x : String) :
    x ∈ equivOf rpg plane pts ↔
      ∃ op ∈ rpg, ∃ pr ∈ planesList, pr.1 = x ∧ pr.1 ≠ plane ∧
        _is_permutation_eq pr.2 (transPts op pts) = true := by
  unfold equivOf
  rw [mem_equivOf_foldl rpg [] x]
  simp

theorem nodup_equivOf_foldl {plane : String} {pts : List Pt} (l : List M3) :
    ∀ acc : List String, acc.Nodup →
      (l.foldl (fun acc op => equivInner plane (transPts op pts) acc) acc).Nodup := by
  induction l with
  | nil => intro acc h; simpa using h
  | cons hd tl ih =>
    intro acc hacc
    rw [List.foldl_cons]
    exact ih _ (nodup_inner_foldl planesList acc hacc)

theorem nodup_equivOf (rpg : List M3) (plane : String) (pts : List Pt) :
    (equivOf rpg plane pts).Nodup :=
  nodup_equivOf_foldl rpg [] List.nodup_nil

theorem equivOf_congr {rpg₁ rpg₂ : List M3} (h : ∀ g : M3, g ∈ rpg₁ ↔ g ∈ rpg₂)
    (plane : String) (pts : List Pt) (x : String) :
    x ∈ equivOf rpg₁ plane pts ↔ x ∈ equivOf rpg₂ plane pts := by
  rw [mem_equivOf, mem_equivOf]
  constructor
  · rintro ⟨op, hop, rest⟩
    exact ⟨op, (h op).mp hop, rest⟩
  · rintro ⟨op, hop, rest⟩
    exact ⟨op, (h op).mpr hop, rest⟩

theorem equivOf_label_ne {rpg : List M3} {plane : String} {pts : List Pt} :
    ∀ x ∈ equivOf rpg plane pts, x ∈ surfaceLabels ∧ x ≠ plane := by
  intro x hx
  rcases (mem_equivOf x).1 hx with ⟨op, -, pr, hpr, h1, h2, -⟩
  exact ⟨h1 ▸ List.mem_map_of_mem Prod.fst hpr, fun hxp => h2 (h1.trans hxp)⟩

theorem equivOf_eq_nil {rpg : List M3} {plane : String} {pts : List Pt}
    (h : ∀ op ∈ rpg, ∀ pr ∈ planesList, pr.1 ≠ plane →
      _is_permutation_eq pr.2 (transPts op pts) = false) :
    equivOf rpg plane pts = [] := by
  rw [List.eq_nil_iff_forall_not_mem]
  intro x hx
  rcases (mem_equivOf x).1 hx with ⟨op, hop, pr, hpr, -, h2, h3⟩
  rw [h op hop pr hpr h2] at h3
  cases h3

/-! ## The surface selector -/

theorem mem_selStep {x : String} {surfaces : List String} {pr : String × List String}
    (h : x ∈ surfaces) : x ∈ selStep surfaces pr := by
  simp only [selStep]
  by_cases hc : (surfaces.all (fun s => decide (s ∉ pr.2)) : Bool) ∧ pr.1 ∉ surfaces
  · rw [if_pos hc]
    exact List.mem_append_left _ h
  · rwa [if_neg hc]

theorem select_foldl_mono {x : String} (l : List (String × List String)) :
    ∀ acc : List String, x ∈ acc → x ∈ l.foldl selStep acc := by
  induction l with
  | nil => intro acc h; simpa using h
  | cons hd tl ih => intro acc h; exact ih _ (mem_selStep h)

theorem kx0_mem_selectSurfaces (sr : Bool) (ep : List (String × List String)) :
    "kx_0" ∈ selectSurfaces sr ep := by
  cases sr with
  | false => simp [selectSurfaces, allSurfaces]
  | true =>
    simp only [selectSurfaces, if_pos rfl]
    exact select_foldl_mono ep seedSurfaces (by simp [seedSurfaces])

theorem all_decide_congr {α : Type} (p q : α → Prop) [DecidablePred p] [DecidablePred q]
    (h : ∀ s, p s ↔ q s) :
    ∀ l : List α, l.all (fun s => decide (p s)) = l.all (fun s => decide (q s)) := by
  intro l
  induction l with
  | nil => rfl
  | cons hd tl ih => simp [List.all_cons, ih, decide_eq_decide.2 (h hd)]

theorem selStep_congr {surfaces : List String} {pr qr : String × List String}
    (h1 : pr.1 = qr.1) (h2 : ∀ s, s ∈ pr.2 ↔ s ∈ qr.2) :
    selStep surfaces pr = selStep surfaces qr := by
  simp only [selStep]
  rw [all_decide_congr (fun s => s ∉ pr.2) (fun s => s ∉ qr.2)
    (fun s => not_congr (h2 s)) surfaces, h1]

theorem select_foldl_congr {ep₁ ep₂ : List (String × List String)}
    (h : List.Forall₂ (fun p q => p.1 = q.1 ∧ ∀ s, s ∈ p.2 ↔ s ∈ q.2) ep₁ ep₂) :
    ∀ acc : List String, ep₁.foldl selStep acc = ep₂.foldl selStep acc := by
  induction h with
  | nil => intro acc; rfl
  | cons hpq _ ih =>
    intro acc
    rw [List.foldl_cons, List.foldl_cons, selStep_congr hpq.1 hpq.2]
    exact ih _

theorem selectSurfaces_congr {ep₁ ep₂ : List (String × List String)} (sr : Bool)
    (h : List.Forall₂ (fun p q => p.1 = q.1 ∧ ∀ s, s ∈ p.2 ↔ s ∈ q.2) ep₁ ep₂) :
    selectSurfaces sr ep₁ = selectSurfaces sr ep₂ := by
  cases sr with
  | false => rfl
  | true =>
    simp only [selectSurfaces, if_pos rfl]
    exact select_foldl_congr h seedSurfaces

theorem forall₂_map_same {α β : Type} {R : β → β → Prop} {f g : α → β} (l : List α)
    (h : ∀ a ∈ l, R (f a) (g a)) : List.Forall₂ R (l.map f) (l.map g) := by
  induction l with
  | nil => exact List.Forall₂.nil
  | cons hd tl ih =>
    exact List.Forall₂.cons (h hd (List.mem_cons_self hd tl))
      (ih (fun a ha => h a (List.mem_cons_of_mem hd ha)))

/-! ## C4: only identity and inversion -/

/-- Neither the identity nor the inversion generator transports any
surface onto a different one (both fix every special point modulo 1). -/
theorem check_trivial_ops :
    ∀ pr ∈ planesList, ∀ qr ∈ planesList, qr.1 ≠ pr.1 →
      _is_permutation_eq qr.2 (transPts 1 pr.2) = false ∧
        _is_permutation_eq qr.2 (transPts (-1) pr.2) = false := by
  with_unfolding_all decide

/-- C4: for every structure whose reciprocal point group contains only
the identity and the inversion generator, every plane's equivalence list
is empty (in particular, it contains at most its antipodal partner), and
`get_wf` with symmetry reduction retains all six surfaces. -/
theorem claim_C4_trivial_group_keeps_all_six (rpg : List M3)
    (h : ∀ g ∈ rpg, g = 1 ∨ g = -1) :
    (∀ pr ∈ get_equiv_planes rpg, pr.2 = []) ∧
      retainedSurfaces rpg true = allSurfaces := by
  have hnil : ∀ pr ∈ planesList, equivOf rpg pr.1 pr.2 = [] := by
    intro pr hpr
    apply equivOf_eq_nil
    intro op hop qr hqr hne
    rcases h op hop with rfl | rfl
    · exact (check_trivial_ops pr hpr qr hqr hne).1
    · exact (check_trivial_ops pr hpr qr hqr hne).2
  constructor
  · intro pr hpr
    rcases List.mem_map.1 hpr with ⟨qr, hqr, rfl⟩
    exact hnil qr hqr
  · unfold retainedSurfaces
    have hgep : get_equiv_planes rpg =
        planesList.map (fun pr => (pr.1, ([] : List String))) := by
      unfold get_equiv_planes
      refine List.map_congr_left ?_
      intro pr hpr
      rw [hnil pr hpr]
    rw [hgep]
    with_unfolding_all decide

/-- Witness for C4 at the concrete two-element group `[1, -1]`. -/
theorem claim_C4_witness : retainedSurfaces [1, -1] true = allSurfaces :=
  (claim_C4_trivial_group_keeps_all_six [1, -1] (by with_unfolding_all decide)).2

/-! ## C1: the full cubic point group -/

theorem planesList_expand :
    planesList = [("kx_0", planePts 0 0), ("kx_1", planePts 0 1),
      ("ky_0", planePts 1 0), ("ky_1", planePts 1 1),
      ("kz_0", planePts 2 0), ("kz_1", planePts 2 1)] := by
  with_unfolding_all decide

set_option maxRecDepth 10000 in
theorem equivOf_cubic48_kx0 :
    equivOf cubic48 "kx_0" (planePts 0 0) = ["ky_0", "kz_0"] := by
  with_unfolding_all decide

set_option maxRecDepth 10000 in
theorem equivOf_cubic48_kx1 :
    equivOf cubic48 "kx_1" (planePts 0 1) = ["ky_1", "kz_1"] := by
  with_unfolding_all decide

set_option maxRecDepth 10000 in
theorem equivOf_cubic48_ky0 :
    equivOf cubic48 "ky_0" (planePts 1 0) = ["kz_0", "kx_0"] := by
  with_unfolding_all decide

set_option maxRecDepth 10000 in
theorem equivOf_cubic48_ky1 :
    equivOf cubic48 "ky_1" (planePts 1 1) = ["kz_1", "kx_1"] := by
  with_unfolding_all decide

set_option maxRecDepth 10000 in
theorem equivOf_cubic48_kz0 :
    equivOf cubic48 "kz_0" (planePts 2 0) = ["ky_0", "kx_0"] := by
  with_unfolding_all decide

set_option maxRecDepth 10000 in
theorem equivOf_cubic48_kz1 :
    equivOf cubic48 "kz_1" (planePts 2 1) = ["ky_1", "kx_1"] := by
  with_unfolding_all decide

set_option maxRecDepth 10000 in
theorem select_cubic48 :
    selectSurfaces true (get_equiv_planes cubic48) = seedSurfaces := by
  with_unfolding_all decide

set_option maxRecDepth 10000 in
/-- Counterexample for C1 as stated: under the full cubic point group the
equivalence list of `kx_0` is `["ky_0", "kz_0"]` — it does not contain
`kx_1`, so the six surfaces do not form a single mutual equivalence
class (no linear operation can map the special points of an
origin-containing surface onto a surface at offset 1/2, because the
origin is fixed modulo 1). -/
theorem claim_C1_counterexample :
    ("kx_0", ["ky_0", "kz_0"]) ∈ get_equiv_planes cubic48 ∧
      "kx_1" ∉ (["ky_0", "kz_0"] : List String) := by
  with_unfolding_all decide

/-- C1 (amended): for every structure whose reciprocal point group is the
full cubic point group (the 48 signed permutation matrices), the six
surfaces fall into two mutual equivalence classes by offset — each
surface's equivalence set consists exactly of the two other surfaces
with the same offset — and `get_wf` with `symmetry_reduction=True`
retains exactly the 2 seed surfaces `kx_0` and `kx_1`. -/
theorem claim_C1_amended_cubic_two_classes (rpg : List M3)
    (h : ∀ g : M3, g ∈ rpg ↔ g ∈ cubic48) :
    (∀ pr ∈ get_equiv_planes rpg, ∀ s : String, s ∈ pr.2 ↔ s ∈ offsetClass pr.1) ∧
      retainedSurfaces rpg true = seedSurfaces := by
  constructor
  · intro pr hpr s
    rcases List.mem_map.1 hpr with ⟨qr, hqr, rfl⟩
    show s ∈ equivOf rpg qr.1 qr.2 ↔ s ∈ offsetClass qr.1
    rw [equivOf_congr h qr.1 qr.2 s]
    rw [planesList_expand] at hqr
    simp only [List.mem_cons, List.not_mem_nil, or_false] at hqr
    rcases hqr with rfl | rfl | rfl | rfl | rfl | rfl
    · rw [equivOf_cubic48_kx0, show offsetClass "kx_0" = ["ky_0", "kz_0"] from rfl]
    · rw [equivOf_cubic48_kx1, show offsetClass "kx_1" = ["ky_1", "kz_1"] from rfl]
    · rw [equivOf_cubic48_ky0, show offsetClass "ky_0" = ["kx_0", "kz_0"] from rfl]
      simp only [List.mem_cons, List.not_mem_nil, or_false]
      exact or_comm
    · rw [equivOf_cubic48_ky1, show offsetClass "ky_1" = ["kx_1", "kz_1"] from rfl]
      simp only [List.mem_cons, List.not_mem_nil, or_false]
      exact or_comm
    · rw [equivOf_cubic48_kz0, show offsetClass "kz_0" = ["kx_0", "ky_0"] from rfl]
      simp only [List.mem_cons, List.not_mem_nil, or_false]
      exact or_comm
    · rw [equivOf_cubic48_kz1, show offsetClass "kz_1" = ["kx_1", "ky_1"] from rfl]
      simp only [List.mem_cons, List.not_mem_nil, or_false]
      exact or_comm
  · unfold retainedSurfaces
    have hf : List.Forall₂ (fun p q => p.1 = q.1 ∧ ∀ s, s ∈ p.2 ↔ s ∈ q.2)
        (planesList.map (fun pr => (pr.1, equivOf rpg pr.1 pr.2)))
        (planesList.map (fun pr => (pr.1, equivOf cubic48 pr.1 pr.2))) :=
      forall₂_map_same planesList (fun a _ => ⟨rfl, fun s => equivOf_congr h a.1 a.2 s⟩)
    have hsel : selectSurfaces true (get_equiv_planes rpg) =
        selectSurfaces true (get_equiv_planes cubic48) := selectSurfaces_congr true hf
    rw [hsel, select_cubic48]

/-- Witness for C1 at the canonical enumeration of the cubic group. -/
theorem claim_C1_witness : retainedSurfaces cubic48 true = seedSurfaces :=
  (claim_C1_amended_cubic_two_classes cubic48 (fun _ => Iff.rfl)).2

/-! ## C8: shape of the equivalence map

A reciprocal point group consists of symmetry operations expressed in
the fractional reciprocal basis: integer matrices of determinant ±1
(they map the reciprocal lattice bijectively onto itself; the builder's
2-decimal rounding only absorbs floating-point noise).  Under exactly
this hypothesis each surface can only be equivalent to a surface with
the same offset: a unimodular integer matrix maps a point to an integer
vector modulo 1 only if the point itself is an integer vector, so the
special-point sets of an offset-0 surface (which contains the origin)
and of an offset-1/2 surface (whose points all have a coordinate 1/2)
can never be exchanged.  Hence every equivalence list has at most 2
entries, well within the claimed bound of 4. -/

theorem isInt_iff {q : ℚ} : isInt q ↔ ∃ k : ℤ, q = (k : ℚ) := by
  constructor
  · intro h
    exact ⟨q.num, ((Rat.den_eq_one_iff q).1 h).symm⟩
  · rintro ⟨k, rfl⟩
    exact Rat.den_intCast k

theorem isInt_intCast (k : ℤ) : isInt (k : ℚ) := Rat.den_intCast k

theorem isInt_add {a b : ℚ} (ha : isInt a) (hb : isInt b) : isInt (a + b) := by
  rcases isInt_iff.1 ha with ⟨j, rfl⟩
  rcases isInt_iff.1 hb with ⟨k, rfl⟩
  exact isInt_iff.2 ⟨j + k, by push_cast; ring⟩

theorem isInt_mul {a b : ℚ} (ha : isInt a) (hb : isInt b) : isInt (a * b) := by
  rcases isInt_iff.1 ha with ⟨j, rfl⟩
  rcases isInt_iff.1 hb with ⟨k, rfl⟩
  exact isInt_iff.2 ⟨j * k, by push_cast; ring⟩

theorem isInt_neg {a : ℚ} (ha : isInt a) : isInt (-a) := by
  rcases isInt_iff.1 ha with ⟨j, rfl⟩
  exact isInt_iff.2 ⟨-j, by push_cast; ring⟩

theorem isInt_sub {a b : ℚ} (ha : isInt a) (hb : isInt b) : isInt (a - b) := by
  rw [sub_eq_add_neg]
  exact isInt_add ha (isInt_neg hb)

theorem isInt_of_neg {a : ℚ} (h : isInt (-a)) : isInt a := by
  have := isInt_neg h
  rwa [neg_neg] at this

theorem m3Adj_isInt {m : M3} (h : m3IsInt m) : m3IsInt (m3Adj m) := by
  obtain ⟨h00, h01, h02, h10, h11, h12, h20, h21, h22⟩ := h
  exact ⟨isInt_sub (isInt_mul h11 h22) (isInt_mul h12 h21),
    isInt_neg (isInt_sub (isInt_mul h01 h22) (isInt_mul h02 h21)),
    isInt_sub (isInt_mul h01 h12) (isInt_mul h02 h11),
    isInt_neg (isInt_sub (isInt_mul h10 h22) (isInt_mul h12 h20)),
    isInt_sub (isInt_mul h00 h22) (isInt_mul h02 h20),
    isInt_neg (isInt_sub (isInt_mul h00 h12) (isInt_mul h02 h10)),
    isInt_sub (isInt_mul h10 h21) (isInt_mul h11 h20),
    isInt_neg (isInt_sub (isInt_mul h00 h21) (isInt_mul h01 h20)),
    isInt_sub (isInt_mul h00 h11) (isInt_mul h01 h10)⟩

theorem mApply_isInt {m : M3} {x : Pt} (hm : m3IsInt m) (h1 : isInt x.1)
    (h2 : isInt x.2.1) (h3 : isInt x.2.2) :
    isInt (mApply m x).1 ∧ isInt (mApply m x).2.1 ∧ isInt (mApply m x).2.2 := by
  obtain ⟨h00, h01, h02, h10, h11, h12, h20, h21, h22⟩ := hm
  exact ⟨isInt_add (isInt_add (isInt_mul h00 h1) (isInt_mul h01 h2)) (isInt_mul h02 h3),
    isInt_add (isInt_add (isInt_mul h10 h1) (isInt_mul h11 h2)) (isInt_mul h12 h3),
    isInt_add (isInt_add (isInt_mul h20 h1) (isInt_mul h21 h2)) (isInt_mul h22 h3)⟩

/-- The adjugate identity on vectors: applying `m3Adj m` after `m`
scales by the determinant. -/
theorem mApply_adj (m : M3) (x : Pt) :
    mApply (m3Adj m) (mApply m x) = (m3Det m * x.1, m3Det m * x.2.1, m3Det m * x.2.2) := by
  obtain ⟨x1, x2, x3⟩ := x
  simp only [mApply, m3Adj, m3Det, Prod.mk.injEq]
  refine ⟨?_, ?_, ?_⟩ <;> ring

/-- A unimodular integer matrix maps only integer vectors to integer
vectors: if `m·x` is integral then so is `x`. -/
theorem unimodular_preimage_int {m : M3} {x : Pt} (hm : m3IsInt m)
    (hdet : m3Det m = 1 ∨ m3Det m = -1)
    (h : isInt (mApply m x).1 ∧ isInt (mApply m x).2.1 ∧ isInt (mApply m x).2.2) :
    isInt x.1 ∧ isInt x.2.1 ∧ isInt x.2.2 := by
  have hint := mApply_isInt (m3Adj_isInt hm) h.1 h.2.1 h.2.2
  rw [mApply_adj m x] at hint
  rcases hdet with hd | hd <;> rw [hd] at hint
  · obtain ⟨hi1, hi2, hi3⟩ := hint
    rw [show (1 : ℚ) * x.1 = x.1 from one_mul x.1] at hi1
    rw [show (1 : ℚ) * x.2.1 = x.2.1 from one_mul x.2.1] at hi2
    rw [show (1 : ℚ) * x.2.2 = x.2.2 from one_mul x.2.2] at hi3
    exact ⟨hi1, hi2, hi3⟩
  · obtain ⟨hi1, hi2, hi3⟩ := hint
    rw [show (-1 : ℚ) * x.1 = -x.1 from neg_one_mul x.1] at hi1
    rw [show (-1 : ℚ) * x.2.1 = -x.2.1 from neg_one_mul x.2.1] at hi2
    rw [show (-1 : ℚ) * x.2.2 = -x.2.2 from neg_one_mul x.2.2] at hi3
    exact ⟨isInt_of_neg hi1, isInt_of_neg hi2, isInt_of_neg hi3⟩

theorem isInt_of_frac1_eq_zero {q : ℚ} (h : frac1 q = 0) : isInt q := by
  rw [frac1, sub_eq_zero] at h
  exact isInt_iff.2 ⟨⌊q⌋, h⟩

theorem mApply_zero (m : M3) : mApply m ((0 : ℚ), (0 : ℚ), (0 : ℚ)) = (0, 0, 0) := by
  simp [mApply]

theorem ptMod1_zero : ptMod1 ((0 : ℚ), (0 : ℚ), (0 : ℚ)) = (0, 0, 0) := by
  simp [ptMod1, frac1]

/-- A surface whose special points contain the origin is never
equivalent to one whose special points avoid it (the origin is fixed by
every linear operation, also modulo 1). -/
theorem no_cross_up {M : M3} {ppts qpts : List Pt}
    (hp : ((0 : ℚ), (0 : ℚ), (0 : ℚ)) ∈ ppts) (hq : ((0 : ℚ), (0 : ℚ), (0 : ℚ)) ∉ qpts) :
    _is_permutation_eq qpts (transPts M ppts) = false := by
  cases hb : _is_permutation_eq qpts (transPts M ppts) with
  | false => rfl
  | true =>
    exfalso
    obtain ⟨-, hsub⟩ := (is_permutation_eq_iff qpts (transPts M ppts)).1 hb
    have hmem : ((0 : ℚ), (0 : ℚ), (0 : ℚ)) ∈ transPts M ppts :=
      List.mem_map.2 ⟨_, hp, by rw [mApply_zero, ptMod1_zero]⟩
    exact hq (hsub _ hmem)

/-- Under a unimodular integer operation, a surface whose special points
all have some non-integer coordinate is never equivalent to one whose
special points contain the origin. -/
theorem no_cross_down {M : M3} {ppts qpts : List Pt} (hint : m3IsInt M)
    (hdet : m3Det M = 1 ∨ m3Det M = -1)
    (hq0 : ((0 : ℚ), (0 : ℚ), (0 : ℚ)) ∈ qpts)
    (hp4 : ppts.length = 4) (hq4 : qpts.length = 4)
    (hhalf : ∀ x ∈ ppts, ¬(isInt x.1 ∧ isInt x.2.1 ∧ isInt x.2.2)) :
    _is_permutation_eq qpts (transPts M ppts) = false := by
  cases hb : _is_permutation_eq qpts (transPts M ppts) with
  | false => rfl
  | true =>
    exfalso
    obtain ⟨hnd, hsub⟩ := (is_permutation_eq_iff qpts (transPts M ppts)).1 hb
    have hlen : (transPts M ppts).length = 4 := by
      rw [transPts, List.length_map, hp4]
    have hsp : List.Subperm (transPts M ppts) qpts :=
      List.subperm_of_subset hnd (fun b hbmem => hsub b hbmem)
    have hperm : (transPts M ppts).Perm qpts :=
      hsp.perm_of_length_le (le_of_eq (hq4.trans hlen.symm))
    have hΓt : ((0 : ℚ), (0 : ℚ), (0 : ℚ)) ∈ transPts M ppts := hperm.mem_iff.2 hq0
    rcases List.mem_map.1 hΓt with ⟨x, hx, hmod⟩
    simp only [ptMod1, Prod.mk.injEq] at hmod
    have hyint : isInt (mApply M x).1 ∧ isInt (mApply M x).2.1 ∧ isInt (mApply M x).2.2 :=
      ⟨isInt_of_frac1_eq_zero hmod.1, isInt_of_frac1_eq_zero hmod.2.1,
       isInt_of_frac1_eq_zero hmod.2.2⟩
    exact hhalf x hx (unimodular_preimage_int hint hdet hyint)

/-- Every recorded equivalence stays within the same offset class:
equivalence lists are contained in the two same-offset other labels. -/
theorem equiv_offset_class {rpg : List M3}
    (H : ∀ op ∈ rpg, m3IsInt op ∧ (m3Det op = 1 ∨ m3Det op = -1)) :
    ∀ pr ∈ planesList, ∀ s ∈ equivOf rpg pr.1 pr.2, s ∈ offsetClass pr.1 := by
  intro pr hpr s hs
  rcases (mem_equivOf s).1 hs with ⟨op, hop, qr, hqr, hq1, hqne, hperm⟩
  obtain ⟨hint, hdet⟩ := H op hop
  subst hq1
  rw [planesList_expand] at hpr hqr
  simp only [List.mem_cons, List.not_mem_nil, or_false] at hpr hqr
  rcases hpr with rfl | rfl | rfl | rfl | rfl | rfl <;>
    rcases hqr with rfl | rfl | rfl | rfl | rfl | rfl <;>
    first
      | exact absurd rfl hqne
      | (with_unfolding_all decide)
      | exact absurd
          ((no_cross_up (by with_unfolding_all decide)
            (by with_unfolding_all decide)).symm.trans hperm) Bool.false_ne_true
      | exact absurd
          ((no_cross_down hint hdet (by with_unfolding_all decide)
            (by with_unfolding_all decide) (by with_unfolding_all decide)
            (by with_unfolding_all decide)).symm.trans hperm) Bool.false_ne_true

/-- C8: for every reciprocal point group (a list of reciprocal-basis
symmetry operations, i.e. integer matrices of determinant ±1), the map
returned by `get_equiv_planes` has exactly the six canonical surface
labels as keys (no surface is omitted; an unmatched surface keeps an
empty list), no surface label appears in its own equivalence list, and
each equivalence list has between 0 and 4 entries (indeed at most the 2
same-offset other surfaces) with no duplicates. -/
theorem claim_C8_map_shape (rpg : List M3)
    (H : ∀ op ∈ rpg, m3IsInt op ∧ (m3Det op = 1 ∨ m3Det op = -1)) :
    (get_equiv_planes rpg).map Prod.fst = surfaceLabels ∧
      ∀ pr ∈ get_equiv_planes rpg, pr.1 ∉ pr.2 ∧ pr.2.Nodup ∧ pr.2.length ≤ 4 := by
  constructor
  · unfold get_equiv_planes surfaceLabels
    rw [List.map_map]
    rfl
  · intro pr hpr
    rcases List.mem_map.1 hpr with ⟨qr, hqr, rfl⟩
    refine ⟨?_, nodup_equivOf rpg qr.1 qr.2, ?_⟩
    · intro hself
      exact (equivOf_label_ne _ hself).2 rfl
    · show (equivOf rpg qr.1 qr.2).length ≤ 4
      have hsub : equivOf rpg qr.1 qr.2 ⊆ offsetClass qr.1 :=
        fun s hsm => equiv_offset_class H qr hqr s hsm
      have hsp := List.subperm_of_subset (nodup_equivOf rpg qr.1 qr.2) hsub
      have hlen := hsp.length_le
      have hoc : (offsetClass qr.1).length ≤ 4 := by
        rw [planesList_expand] at hqr
        simp only [List.mem_cons, List.not_mem_nil, or_false] at hqr
        rcases hqr with rfl | rfl | rfl | rfl | rfl | rfl <;> with_unfolding_all decide
      omega

/-- Witness for C8 at the concrete group `[1, -1]` (integer, determinant
±1) and the key `kx_0`. -/
theorem claim_C8_witness :
    ("kx_0" : String) ∉ ([] : List String) ∧ ([] : List String).Nodup ∧
      ([] : List String).length ≤ 4 :=
  (claim_C8_map_shape [1, -1] (by with_unfolding_all decide)).2 ("kx_0", [])
    (by with_unfolding_all decide)

/-! ## Workflow-graph lemmas -/

theorem modifyNode_name (u : List (String × IncVal)) (k : Option String) (nd : JobNode) :
    (modifyNode u k nd).name = nd.name := by
  by_cases h : nameMatches k nd.name <;> simp [modifyNode, h]

theorem modifyNode_id (u : List (String × IncVal)) (k : Option String) (nd : JobNode) :
    (modifyNode u k nd).id = nd.id := by
  by_cases h : nameMatches k nd.name <;> simp [modifyNode, h]

theorem modifyNode_surface (u : List (String × IncVal)) (k : Option String) (nd : JobNode) :
    (modifyNode u k nd).surface = nd.surface := by
  by_cases h : nameMatches k nd.name <;> simp [modifyNode, h]

theorem modifyNode_parents (u : List (String × IncVal)) (k : Option String) (nd : JobNode) :
    (modifyNode u k nd).parents = nd.parents := by
  by_cases h : nameMatches k nd.name <;> simp [modifyNode, h]

theorem planMod_name (larsen cheon gorai : ℤ) (nd : JobNode) :
    (planMod larsen cheon gorai nd).name = nd.name := by
  by_cases hdim : ([larsen, cheon, gorai].any (fun dim => decide (dim = 2))) = true <;>
    simp [planMod, hdim, modifyNode_name]

theorem planMod_id (larsen cheon gorai : ℤ) (nd : JobNode) :
    (planMod larsen cheon gorai nd).id = nd.id := by
  by_cases hdim : ([larsen, cheon, gorai].any (fun dim => decide (dim = 2))) = true <;>
    simp [planMod, hdim, modifyNode_id]

theorem planMod_surface (larsen cheon gorai : ℤ) (nd : JobNode) :
    (planMod larsen cheon gorai nd).surface = nd.surface := by
  by_cases hdim : ([larsen, cheon, gorai].any (fun dim => decide (dim = 2))) = true <;>
    simp [planMod, hdim, modifyNode_surface]

theorem planMod_parents (larsen cheon gorai : ℤ) (nd : JobNode) :
    (planMod larsen cheon gorai nd).parents = nd.parents := by
  by_cases hdim : ([larsen, cheon, gorai].any (fun dim => decide (dim = 2))) = true <;>
    simp [planMod, hdim, modifyNode_parents]

/-- The plan `buildPlan` is the pointwise application of `planMod` to the base
node list. -/
theorem buildPlan_eq_map (rpg : List M3) (larsen cheon gorai : ℤ) (sr : Bool) :
    buildPlan rpg larsen cheon gorai sr =
      (baseFws (retainedSurfaces rpg sr)).map (planMod larsen cheon gorai) := by
  by_cases hdim : ([larsen, cheon, gorai].any (fun dim => decide (dim = 2))) = true
  · simp only [buildPlan, add_modify_incar, if_pos hdim, List.map_map]
    refine List.map_congr_left ?_
    intro nd _
    simp only [planMod, if_pos hdim]
    rfl
  · simp only [buildPlan, add_modify_incar, if_neg hdim, List.map_map]
    refine List.map_congr_left ?_
    intro nd _
    simp only [planMod, if_neg hdim]
    rfl

theorem z2Surfaces_map_planMod (larsen cheon gorai : ℤ) (ns : List JobNode) :
    z2Surfaces (ns.map (planMod larsen cheon gorai)) = z2Surfaces ns := by
  induction ns with
  | nil => rfl
  | cons nd tl ih =>
    simp only [z2Surfaces] at ih ⊢
    simp only [List.map_cons, List.filterMap_cons]
    rw [planMod_name, planMod_surface, ih]

theorem z2Surfaces_z2Nodes (ss : List String) : ∀ i : ℕ, z2Surfaces (z2Nodes i ss) = ss := by
  induction ss with
  | nil => intro i; rfl
  | cons s tl ih =>
    intro i
    simp only [z2Nodes, z2Surfaces, List.filterMap_cons] at ih ⊢
    simp [ih (i + 1)]

theorem z2Surfaces_baseFws (ss : List String) : z2Surfaces (baseFws ss) = ss := by
  simp only [baseFws, z2Surfaces, List.filterMap_append]
  rw [show ([optFw, staticFw] : List JobNode).filterMap
      (fun nd => if nd.name = "z2pack" then nd.surface else none) = [] from rfl]
  rw [show ([analysisFw ss] : List JobNode).filterMap
      (fun nd => if nd.name = "z2pack" then nd.surface else none) = [] from rfl]
  have := z2Surfaces_z2Nodes ss 2
  simp only [z2Surfaces] at this
  rw [this]
  simp

theorem buildPlan_z2Surfaces (rpg : List M3) (larsen cheon gorai : ℤ) (sr : Bool) :
    z2Surfaces (buildPlan rpg larsen cheon gorai sr) = retainedSurfaces rpg sr := by
  rw [buildPlan_eq_map, z2Surfaces_map_planMod, z2Surfaces_baseFws]

/-- C3: with `symmetry_reduction=False` the selector returns all six
surfaces whatever the equivalence map contains, and the assembled graph
carries a surface-evaluation node for each of the six surfaces. -/
theorem claim_C3_no_reduction_returns_all_six :
    (∀ ep : List (String × List String), selectSurfaces false ep = allSurfaces) ∧
      ∀ (rpg : List M3) (larsen cheon gorai : ℤ),
        z2Surfaces (buildPlan rpg larsen cheon gorai false) = allSurfaces := by
  refine ⟨fun ep => rfl, ?_⟩
  intro rpg larsen cheon gorai
  rw [buildPlan_z2Surfaces]
  rfl

theorem mem_baseFws {ss : List String} {b : JobNode} :
    b ∈ baseFws ss ↔ b = optFw ∨ b = staticFw ∨ b ∈ z2Nodes 2 ss ∨ b = analysisFw ss := by
  simp only [baseFws, List.mem_append, List.mem_cons, List.not_mem_nil, or_false]
  tauto

theorem z2Nodes_props (ss : List String) : ∀ (i : ℕ), ∀ nd ∈ z2Nodes i ss,
    nd.name = "z2pack" ∧ nd.parents = [1] ∧ i ≤ nd.id ∧ nd.id < i + ss.length := by
  induction ss with
  | nil => intro i nd h; cases h
  | cons s tl ih =>
    intro i nd h
    rcases List.mem_cons.1 h with rfl | h
    · refine ⟨rfl, rfl, le_refl _, ?_⟩
      simp only [List.length_cons]
      omega
    · rcases ih (i + 1) nd h with ⟨h1, h2, h3, h4⟩
      refine ⟨h1, h2, by omega, ?_⟩
      simp only [List.length_cons]
      omega

theorem z2Nodes_exists_id (ss : List String) : ∀ i j : ℕ, i ≤ j → j < i + ss.length →
    ∃ nd ∈ z2Nodes i ss, nd.id = j := by
  induction ss with
  | nil =>
    intro i j h1 h2
    simp only [List.length_nil] at h2
    omega
  | cons s tl ih =>
    intro i j h1 h2
    rcases Nat.eq_or_lt_of_le h1 with heq | hlt
    · exact ⟨⟨i, "z2pack", some s, [1], []⟩, List.mem_cons_self _ _, heq⟩
    · simp only [List.length_cons] at h2
      rcases ih (i + 1) j (by omega) (by omega) with ⟨nd, hnd, hid⟩
      exact ⟨nd, List.mem_cons_of_mem _ hnd, hid⟩

theorem base_z2_of_name {ss : List String} {b : JobNode} (hb : b ∈ baseFws ss)
    (hname : b.name = "z2pack") : b ∈ z2Nodes 2 ss := by
  rcases mem_baseFws.1 hb with rfl | rfl | h | rfl
  · exact absurd hname (by decide)
  · exact absurd hname (by decide)
  · exact h
  · rw [show (analysisFw ss).name = "invariant" from rfl] at hname
    exact absurd hname (by decide)

/-- C5: in every assembled graph, the aggregation (invariant) node's
parent set is exactly the set of surface-evaluation (z2pack) node ids,
every surface-evaluation node has the single-point (static) node among
its parents, and no surface-evaluation node is a parent of another. -/
theorem claim_C5_graph_wiring (rpg : List M3) (larsen cheon gorai : ℤ) (sr : Bool) :
    (∀ nd ∈ buildPlan rpg larsen cheon gorai sr, nd.name = "invariant" →
        ∀ j : ℕ, j ∈ nd.parents ↔
          ∃ z ∈ buildPlan rpg larsen cheon gorai sr, z.name = "z2pack" ∧ z.id = j) ∧
      (∀ nd ∈ buildPlan rpg larsen cheon gorai sr, nd.name = "z2pack" →
        ∃ st ∈ buildPlan rpg larsen cheon gorai sr, st.name = "static" ∧ st.id ∈ nd.parents) ∧
      (∀ nd nd' : JobNode, nd ∈ buildPlan rpg larsen cheon gorai sr →
        nd' ∈ buildPlan rpg larsen cheon gorai sr →
        nd.name = "z2pack" → nd'.name = "z2pack" → nd.id ∉ nd'.parents) := by
  have hplan := buildPlan_eq_map rpg larsen cheon gorai sr
  refine ⟨?_, ?_, ?_⟩
  · intro nd hnd hname j
    rw [hplan] at hnd
    rcases List.mem_map.1 hnd with ⟨b, hb, rfl⟩
    rw [planMod_name] at hname
    have hbeq : b = analysisFw (retainedSurfaces rpg sr) := by
      rcases mem_baseFws.1 hb with rfl | rfl | h | rfl
      · exact absurd hname (by decide)
      · exact absurd hname (by decide)
      · rw [(z2Nodes_props _ 2 b h).1] at hname
        exact absurd hname (by decide)
      · rfl
    subst hbeq
    rw [planMod_parents]
    show j ∈ (z2Nodes 2 (retainedSurfaces rpg sr)).map JobNode.id ↔ _
    constructor
    · intro hj
      rcases List.mem_map.1 hj with ⟨z, hz, rfl⟩
      refine ⟨planMod larsen cheon gorai z, ?_, ?_, ?_⟩
      · rw [hplan]
        exact List.mem_map_of_mem _ (mem_baseFws.2 (Or.inr (Or.inr (Or.inl hz))))
      · rw [planMod_name]
        exact (z2Nodes_props _ 2 z hz).1
      · rw [planMod_id]
    · rintro ⟨z, hz, hzname, hzid⟩
      rw [hplan] at hz
      rcases List.mem_map.1 hz with ⟨b', hb', rfl⟩
      rw [planMod_name] at hzname
      rw [planMod_id] at hzid
      have hb'z := base_z2_of_name hb' hzname
      rw [← hzid]
      exact List.mem_map_of_mem JobNode.id hb'z
  · intro nd hnd hname
    rw [hplan] at hnd
    rcases List.mem_map.1 hnd with ⟨b, hb, rfl⟩
    rw [planMod_name] at hname
    have hbz := base_z2_of_name hb hname
    refine ⟨planMod larsen cheon gorai staticFw, ?_, ?_, ?_⟩
    · rw [hplan]
      exact List.mem_map_of_mem _ (mem_baseFws.2 (Or.inr (Or.inl rfl)))
    · rw [planMod_name]
      rfl
    · rw [planMod_id, planMod_parents, (z2Nodes_props _ 2 b hbz).2.1]
      show staticFw.id ∈ [1]
      simp [staticFw]
  · intro nd nd' hnd hnd' hn hn'
    rw [hplan] at hnd hnd'
    rcases List.mem_map.1 hnd with ⟨b, hb, rfl⟩
    rcases List.mem_map.1 hnd' with ⟨b', hb', rfl⟩
    rw [planMod_name] at hn hn'
    have hbz := base_z2_of_name hb hn
    have hbz' := base_z2_of_name hb' hn'
    rw [planMod_id, planMod_parents, (z2Nodes_props _ 2 b' hbz').2.1]
    have hid := (z2Nodes_props _ 2 b hbz).2.2.1
    simp only [List.mem_singleton]
    omega

/-- Witness for C5 at a concrete assembled graph: the surface-evaluation
node for `kx_0` has the static node among its parents. -/
theorem claim_C5_witness :
    ∃ st ∈ buildPlan [(1 : M3)] 0 0 0 false, st.name = "static" ∧
      st.id ∈ (⟨2, "z2pack", some "kx_0", [1],
        [("ADDGRID", IncVal.s ".TRUE."), ("LASPH", IncVal.s ".TRUE."),
         ("GGA", IncVal.s "PS"), ("NCORE", IncVal.i 1)]⟩ : JobNode).parents :=
  (claim_C5_graph_wiring [1] 0 0 0 false).2.1 _ (by with_unfolding_all decide) rfl

/-- C9: the relaxation node's parameter overrides contain the
van-der-Waals key `IVDW` exactly when one of the three dimensionality
classifications equals 2. -/
theorem claim_C9_vdw_override (rpg : List M3) (larsen cheon gorai : ℤ) (sr : Bool) :
    ∀ nd ∈ buildPlan rpg larsen cheon gorai sr, nd.name = "structure optimization" →
      (((larsen = 2 ∨ cheon = 2 ∨ gorai = 2) → "IVDW" ∈ nd.incar.map Prod.fst) ∧
        ((¬ (larsen = 2 ∨ cheon = 2 ∨ gorai = 2)) → "IVDW" ∉ nd.incar.map Prod.fst)) := by
  intro nd hnd hname
  rw [buildPlan_eq_map] at hnd
  rcases List.mem_map.1 hnd with ⟨b, hb, rfl⟩
  rw [planMod_name] at hname
  have hbopt : b = optFw := by
    rcases mem_baseFws.1 hb with rfl | rfl | h | rfl
    · rfl
    · exact absurd hname (by decide)
    · rw [(z2Nodes_props _ 2 b h).1] at hname
      exact absurd hname (by decide)
    · rw [show (analysisFw _).name = "invariant" from rfl] at hname
      exact absurd hname (by decide)
  subst hbopt
  constructor
  · intro hdim
    have hany : ([larsen, cheon, gorai].any (fun dim => decide (dim = 2))) = true := by
      simp only [List.any_cons, List.any_nil, Bool.or_false, Bool.or_eq_true,
        decide_eq_true_eq]
      tauto
    simp only [planMod, hany]
    with_unfolding_all decide
  · intro hdim
    have hl : ¬ larsen = 2 ∧ ¬ cheon = 2 ∧ ¬ gorai = 2 := by tauto
    have hany : ([larsen, cheon, gorai].any (fun dim => decide (dim = 2))) = false := by
      simp only [List.any_cons, List.any_nil, Bool.or_false, Bool.or_eq_false_iff,
        decide_eq_false_iff_not]
      tauto
    simp only [planMod, hany]
    with_unfolding_all decide

/-- Witness for C9: with `larsen_dim = 2`, the relaxation node of a
concrete assembled graph carries the `IVDW` key. -/
theorem claim_C9_witness :
    "IVDW" ∈ (⟨0, "structure optimization", none, [],
      [("IVDW", IncVal.i 11), ("EDIFFG", IncVal.q (1/200)), ("IBRION", IncVal.i 2),
       ("NSW", IncVal.i 100), ("ADDGRID", IncVal.s ".TRUE."), ("LASPH", IncVal.s ".TRUE."),
       ("GGA", IncVal.s "PS"), ("NCORE", IncVal.i 1)]⟩ : JobNode).incar.map Prod.fst :=
  (claim_C9_vdw_override [1] 2 0 0 true _ (by with_unfolding_all decide) rfl).1
    (Or.inl rfl)

/-! ## C6: failure behaviour of assembly -/

/-- Counterexample for C6 as stated: a config missing the solver command
makes `get_wf` fail with a `KeyError` from the direct `c["VASP_CMD"]`
lookup, not with a `ConfigurationError`; no validation of the selected
surfaces or of the config happens anywhere in `get_wf`. -/
theorem claim_C6_counterexample :
    z2pack_get_wf [1] 0 0 0 true (some [("DB_FILE", "db.json")]) =
        Except.error "KeyError: VASP_CMD" ∧
      (Except.error "KeyError: VASP_CMD" : Except String (List JobNode)) ≠
        Except.error "ConfigurationError" := by
  constructor
  · rfl
  · intro h
    rw [Except.error.injEq] at h
    exact absurd h (by decide)

/-- C6 (amended): the selected-surface list can never be empty (it always
contains the seed `kx_0`), so no empty-surface validation exists or
fires; and a non-empty config missing the solver command fails with a
`KeyError` raised while the first job's arguments are evaluated, before
any node exists. -/
theorem claim_C6_amended_failure_behavior :
    (∀ (sr : Bool) (ep : List (String × List String)), selectSurfaces sr ep ≠ []) ∧
      ∀ (rpg : List M3) (larsen cheon gorai : ℤ) (sr : Bool)
        (cfg : List (String × String)), cfg ≠ [] → lookupStr cfg "VASP_CMD" = none →
          z2pack_get_wf rpg larsen cheon gorai sr (some cfg) =
            Except.error "KeyError: VASP_CMD" := by
  constructor
  · intro sr ep hne
    have h := kx0_mem_selectSurfaces sr ep
    rw [hne] at h
    cases h
  · intro rpg larsen cheon gorai sr cfg hne hlook
    have hcc : cfg.isEmpty = false := by
      cases cfg with
      | nil => exact absurd rfl hne
      | cons a t => rfl
    simp only [z2pack_get_wf, hcc, Bool.false_eq_true, if_false, hlook]

/-- Witness for C6 at concrete inputs. -/
theorem claim_C6_witness :
    selectSurfaces true ([] : List (String × List String)) ≠ [] ∧
      z2pack_get_wf [1] 0 0 0 false (some [("DB_FILE", "db.json")]) =
        Except.error "KeyError: VASP_CMD" :=
  ⟨claim_C6_amended_failure_behavior.1 true [],
   claim_C6_amended_failure_behavior.2 [1] 0 0 0 false [("DB_FILE", "db.json")]
     (by simp) rfl⟩

end Pytopomat
